import Mathlib

/-
Verification of The Sleuth Kit's encryption-detection utility
(tsk/util/detect_encryption).  The repository exposes the public header
src/tsk/util/detect_encryption.h, which declares the result record
`encryption_detected_result` and the public operation
`isEncrypted(img_info, offset)`.  The implementation behind the header is
modelled from the specification: a bounded sample of image bytes is read at
the requested offset, matched against a table of known encrypted-container
signatures, and, when no signature matches, scored with Shannon entropy
against a fixed threshold.
-/

open scoped Classical

/-- Modelled from the spec: the library-wide error-string bound used for
the fixed-size `desc` array of `encryption_detected_result`
(`char desc[TSK_ERROR_STRING_MAX_LENGTH]` in detect_encryption.h line 21);
the defining header tsk/base/tsk_base.h is not part of the sources. -/
def TSK_ERROR_STRING_MAX_LENGTH : Nat := 1024

/-- The result record of detect_encryption.h lines 19-22: a plain C `int`
flag (1 if encryption was found, 0 if not) and a bounded description. -/
structure encryption_detected_result where
  isEncrypted : Int
  desc : String

/-- Modelled from the spec: the byte-addressable image abstraction
(`TSK_IMG_INFO` in the header; the image layer itself is an external
collaborator).  `data` is the addressable byte content, `ioFails` models an
underlying I/O failure of the collaborator, and `sector_size` is image
metadata that plays no part in reading bytes. -/
structure TSK_IMG_INFO where
  data : List Nat
  ioFails : Bool
  sector_size : Nat

/-- Modelled from the spec: the fixed sample-window size in bytes
(a 512-byte window, one disk sector). -/
def windowSize : Nat := 512

/-- Modelled from the spec: SampleReader.  Reads up to `windowSize` bytes at
`offset`; a window past the end of the data yields a short (possibly empty)
read, and an underlying access failure yields `none` (the ReadFailure
condition). -/
def readSample (img : TSK_IMG_INFO) (offset : Nat) : Option (List Nat) :=
  if img.ioFails then none
  else some ((img.data.drop offset).take windowSize)

/-- Modelled from the spec: one entry of the signature table — a
human-readable format name, the offset of the magic pattern within the
sample window, and the pattern bytes. -/
structure SignatureEntry where
  name : String
  patternOffset : Nat
  pattern : List Nat

/-- Modelled from the spec: a single signature test.  The entry matches when
the sample is at least `patternOffset + pattern.length` bytes long and the
sample bytes starting at `patternOffset` equal the pattern bytes exactly. -/
def matchesAt (s : List Nat) (e : SignatureEntry) : Bool :=
  decide (e.patternOffset + e.pattern.length ≤ s.length) &&
    ((s.drop e.patternOffset).take e.pattern.length == e.pattern)

/-- Modelled from the spec: SignatureMatcher.  Tests the table entries in
order; the first matching entry wins and its name is returned. -/
def signatureMatch (table : List SignatureEntry) (s : List Nat) : Option String :=
  match table with
  | [] => none
  | e :: rest => if matchesAt s e then some e.name else signatureMatch rest s

/-- Modelled from the spec: the signature table of well-known encrypted
volume/container headers (whole-disk-encryption metadata sectors and
container magic numbers).  The exact original table is not visible in the
sources; these are the documented defensible defaults. -/
def signatureTable : List SignatureEntry :=
  [⟨"BitLocker", 3, [0x2D, 0x46, 0x56, 0x45, 0x2D, 0x46, 0x53, 0x2D]⟩,
   ⟨"LUKS", 0, [0x4C, 0x55, 0x4B, 0x53, 0xBA, 0xBE]⟩,
   ⟨"FileVault", 0, [0x65, 0x6E, 0x63, 0x72, 0x63, 0x64, 0x73, 0x61]⟩]

/-- One step of the histogram loop: bump the bucket of byte `x`. -/
def bumpCount (h : Nat → Nat) (x : Nat) : Nat → Nat :=
  fun b => if b = x then h b + 1 else h b

/-- Modelled from the spec: the 256-bucket byte-frequency histogram,
accumulated by a single pass over the sample. -/
def histogram (s : List Nat) : Nat → Nat :=
  s.foldl bumpCount (fun _ => 0)

/-- Modelled from the spec: EntropyAnalyzer.  Shannon entropy of the
byte-value distribution: over the 256 buckets, sum `-(p * log2 p)` for the
buckets with a nonzero count, where `p` is the bucket count over the sample
length; an empty sample has entropy 0. -/
noncomputable def calculateEntropy (s : List Nat) : ℝ :=
  if s.length = 0 then 0
  else ∑ b ∈ Finset.range 256,
    (if histogram s b ≠ 0 then
       -(((histogram s b : ℝ) / (s.length : ℝ)) *
          Real.logb 2 ((histogram s b : ℝ) / (s.length : ℝ)))
     else 0)

/-- Modelled from the spec: the fixed entropy cutoff above which a sample is
classified as statistically encryption-like (a tunable constant near the top
of the [0, 8] range). -/
noncomputable def ENCRYPTION_MINIMUM_ENTROPY : ℝ := 7.5

/-- Truncation of a description to the bounded `desc` field: a C string in a
`char[TSK_ERROR_STRING_MAX_LENGTH]` array keeps at most
`TSK_ERROR_STRING_MAX_LENGTH - 1` characters of text. -/
def truncateDesc (s : String) : String :=
  String.mk (s.data.take (TSK_ERROR_STRING_MAX_LENGTH - 1))

/-- Modelled from the spec: the description explaining that the sample read
could not be performed. -/
def readErrorDesc : String := "Unable to read image data to detect encryption"

/-- Modelled from the spec: the description naming a matched format. -/
def signatureDesc (name : String) : String := name ++ " encryption detected"

/-- Modelled from the spec: rendering of an entropy score in a description
(the score to two decimal places). -/
noncomputable def fmtScore (x : ℝ) : String := toString (Int.floor (x * 100))

/-- Modelled from the spec: the description stating that the observed score
exceeds the generic-encryption threshold. -/
noncomputable def highEntropyDesc (score : ℝ) : String :=
  "High entropy value of " ++ fmtScore score ++ " exceeds the encryption threshold"

/-- Modelled from the spec: the description stating the observed score as
supporting evidence of non-encryption. -/
noncomputable def lowEntropyDesc (score : ℝ) : String :=
  "Low entropy value of " ++ fmtScore score ++ " is under the encryption threshold"

/-- Modelled from the spec: the fully-formed fail-open result used when the
sample read fails or yields zero bytes. -/
def readErrorResult : encryption_detected_result :=
  { isEncrypted := 0, desc := truncateDesc readErrorDesc }

/-- Modelled from the spec: Matching and Scoring on a sample that was
actually read.  A signature match wins outright; otherwise the entropy score
is compared against the threshold. -/
noncomputable def classifySample (s : List Nat) : encryption_detected_result :=
  match signatureMatch signatureTable s with
  | some name => { isEncrypted := 1, desc := truncateDesc (signatureDesc name) }
  | none =>
    if ENCRYPTION_MINIMUM_ENTROPY < calculateEntropy s then
      { isEncrypted := 1, desc := truncateDesc (highEntropyDesc (calculateEntropy s)) }
    else
      { isEncrypted := 0, desc := truncateDesc (lowEntropyDesc (calculateEntropy s)) }

/-- Modelled from the spec: the public operation
`isEncrypted(img_info, offset)` declared in detect_encryption.h line 24.
Reading, then matching, then (conditionally) scoring; a failed or empty read
short-circuits to the fail-open result. -/
noncomputable def isEncrypted (img : TSK_IMG_INFO) (offset : Nat) :
    encryption_detected_result :=
  match readSample img offset with
  | none => readErrorResult
  | some [] => readErrorResult
  | some (b :: rest) => classifySample (b :: rest)

/-- Test fixture: an image whose window is all zero bytes. -/
def zeroImage : TSK_IMG_INFO :=
  { data := List.replicate windowSize 0, ioFails := false, sector_size := 512 }

/-- Test fixture: an image whose bytes are exactly the LUKS magic value. -/
def lukImage : TSK_IMG_INFO :=
  { data := [0x4C, 0x55, 0x4B, 0x53, 0xBA, 0xBE], ioFails := false, sector_size := 512 }

/-- Test fixture: an image shorter than the sample window, with no
signature. -/
def shortImage : TSK_IMG_INFO :=
  { data := [1, 2, 3], ioFails := false, sector_size := 512 }

/-- Test fixture: an image whose reads fail. -/
def badImage : TSK_IMG_INFO :=
  { data := [], ioFails := true, sector_size := 512 }

/-- Test fixture: same bytes as `imgB`, different sector-size metadata. -/
def imgA : TSK_IMG_INFO :=
  { data := [7, 7, 7], ioFails := false, sector_size := 512 }

/-- Test fixture: same bytes as `imgA`, different sector-size metadata. -/
def imgB : TSK_IMG_INFO :=
  { data := [7, 7, 7], ioFails := false, sector_size := 4096 }

/-! ## Supporting lemmas -/

theorem foldl_bumpCount (s : List Nat) (h : Nat → Nat) (b : Nat) :
    (s.foldl bumpCount h) b = h b + s.count b := by
  induction s generalizing h with
  | nil => simp
  | cons x t ih =>
    simp only [List.foldl_cons, ih, List.count_cons, bumpCount]
    by_cases hbx : b = x
    · subst hbx; simp; omega
    · have : (x == b) = false := by simp [Ne.symm hbx]
      simp [hbx, this]

theorem histogram_eq_count (s : List Nat) (b : Nat) :
    histogram s b = s.count b := by
  simpa using foldl_bumpCount s (fun _ => 0) b

theorem sum_count_range (s : List Nat) (h : ∀ x ∈ s, x < 256) :
    ∑ b ∈ Finset.range 256, s.count b = s.length := by
  induction s with
  | nil => simp
  | cons x t ih =>
    have hx : x < 256 := h x (by simp)
    have ht : ∀ y ∈ t, y < 256 := fun y hy => h y (by simp [hy])
    have hcount : ∀ b, (x :: t).count b = t.count b + if x = b then 1 else 0 := by
      intro b
      simp [List.count_cons, beq_iff_eq]
    simp only [hcount]
    rw [Finset.sum_add_distrib, ih ht, Finset.sum_ite_eq]
    simp [Finset.mem_range.mpr hx]

theorem truncateDesc_length (s : String) :
    (truncateDesc s).length ≤ TSK_ERROR_STRING_MAX_LENGTH := by
  have : (truncateDesc s).length ≤ TSK_ERROR_STRING_MAX_LENGTH - 1 := by
    simp only [truncateDesc, String.length_mk]
    exact le_trans (List.length_take_le _ _) (le_refl _)
  omega

theorem truncateDesc_eq_of_le (s : String)
    (h : s.length ≤ TSK_ERROR_STRING_MAX_LENGTH - 1) : truncateDesc s = s := by
  cases s with
  | mk data =>
    simp only [truncateDesc]
    rw [List.take_of_length_le]
    simpa [String.length_mk] using h

theorem calculateEntropy_nil : calculateEntropy [] = 0 := by
  simp [calculateEntropy]

theorem calculateEntropy_nonneg (s : List Nat) : 0 ≤ calculateEntropy s := by
  unfold calculateEntropy
  by_cases h0 : s.length = 0
  · simp [h0]
  · rw [if_neg h0]
    apply Finset.sum_nonneg
    intro b _
    by_cases hb : histogram s b ≠ 0
    · rw [if_pos hb]
      have hLpos : (0:ℝ) < (s.length : ℝ) := by
        exact_mod_cast Nat.pos_of_ne_zero h0
      have hcpos : (0:ℝ) < (histogram s b : ℝ) := by
        exact_mod_cast Nat.pos_of_ne_zero hb
      have hp1 : (histogram s b : ℝ) / (s.length : ℝ) ≤ 1 := by
        rw [div_le_one hLpos]
        have := List.count_le_length b s
        rw [← histogram_eq_count] at this
        exact_mod_cast this
      have hppos : 0 < (histogram s b : ℝ) / (s.length : ℝ) := div_pos hcpos hLpos
      have hlog : Real.logb 2 ((histogram s b : ℝ) / (s.length : ℝ)) ≤ 0 :=
        Real.logb_nonpos (by norm_num) hppos.le hp1
      nlinarith
    · rw [if_neg hb]

theorem concaveOn_logb_two : ConcaveOn ℝ (Set.Ioi (0:ℝ)) (Real.logb 2) := by
  have hlogc : ConcaveOn ℝ (Set.Ioi (0:ℝ)) Real.log := strictConcaveOn_log_Ioi.concaveOn
  have hc : (0:ℝ) ≤ (Real.log 2)⁻¹ :=
    inv_nonneg.mpr (Real.log_nonneg (by norm_num))
  have hsmul := hlogc.smul hc
  have hfun : Real.logb 2 = (Real.log 2)⁻¹ • Real.log := by
    funext x
    simp [Real.logb, Pi.smul_apply, smul_eq_mul, div_eq_inv_mul]
  rw [hfun]
  exact hsmul

theorem sum_neg_mul_logb_le (t : Finset Nat) (w : Nat → ℝ)
    (hpos : ∀ b ∈ t, 0 < w b) (hsum : ∑ b ∈ t, w b = 1)
    (hcard : (t.card : ℝ) ≤ 256) (hne : t.Nonempty) :
    ∑ b ∈ t, -(w b * Real.logb 2 (w b)) ≤ 8 := by
  have h₀ : ∀ b ∈ t, 0 ≤ w b := fun b hb => (hpos b hb).le
  have hmem : ∀ b ∈ t, (w b)⁻¹ ∈ Set.Ioi (0:ℝ) := by
    intro b hb
    exact Set.mem_Ioi.mpr (inv_pos.mpr (hpos b hb))
  have hjen := concaveOn_logb_two.le_map_sum h₀ hsum hmem
  have hlhs : (∑ b ∈ t, w b • Real.logb 2 ((w b)⁻¹))
      = ∑ b ∈ t, -(w b * Real.logb 2 (w b)) := by
    apply Finset.sum_congr rfl
    intro b _
    rw [Real.logb_inv, smul_eq_mul]
    ring
  have hrhs : (∑ b ∈ t, w b • (w b)⁻¹) = (t.card : ℝ) := by
    rw [Finset.sum_congr rfl (fun b hb => ?_), Finset.sum_const, nsmul_eq_mul, mul_one]
    rw [smul_eq_mul, mul_inv_cancel₀ (hpos b hb).ne']
  rw [hlhs, hrhs] at hjen
  have hcardpos : (0:ℝ) < (t.card : ℝ) := by
    exact_mod_cast Finset.card_pos.mpr hne
  have hmono : Real.logb 2 (t.card : ℝ) ≤ Real.logb 2 256 :=
    Real.logb_le_logb_of_le (by norm_num) hcardpos hcard
  have h256 : Real.logb 2 256 = 8 := by
    rw [show (256:ℝ) = 2 ^ (8:ℕ) by norm_num, Real.logb_pow,
      Real.logb_self_eq_one (by norm_num)]
    norm_num
  linarith

theorem sum_histogram_range (s : List Nat) (h : ∀ x ∈ s, x < 256) :
    ∑ b ∈ Finset.range 256, histogram s b = s.length := by
  simp only [histogram_eq_count]
  exact sum_count_range s h

theorem calculateEntropy_le_eight (s : List Nat) (hall : ∀ x ∈ s, x < 256) :
    calculateEntropy s ≤ 8 := by
  unfold calculateEntropy
  by_cases h0 : s.length = 0
  · rw [if_pos h0]; norm_num
  · rw [if_neg h0, ← Finset.sum_filter]
    have hLpos : (0:ℝ) < (s.length : ℝ) := by
      exact_mod_cast Nat.pos_of_ne_zero h0
    apply sum_neg_mul_logb_le _ (fun b => (histogram s b : ℝ) / (s.length : ℝ))
    · intro b hb
      rw [Finset.mem_filter] at hb
      exact div_pos (by exact_mod_cast Nat.pos_of_ne_zero hb.2) hLpos
    · rw [← Finset.sum_div, ← Nat.cast_sum, Finset.sum_filter_ne_zero,
        sum_histogram_range s hall]
      exact div_self hLpos.ne'
    · calc (((Finset.range 256).filter (fun b => histogram s b ≠ 0)).card : ℝ)
          ≤ ((Finset.range 256).card : ℝ) := by
            exact_mod_cast Finset.card_filter_le _ _
        _ = 256 := by simp
    · obtain ⟨x, hx⟩ := List.exists_mem_of_length_pos (Nat.pos_of_ne_zero h0)
      refine ⟨x, Finset.mem_filter.mpr ⟨Finset.mem_range.mpr (hall x hx), ?_⟩⟩
      rw [histogram_eq_count]
      exact Nat.pos_iff_ne_zero.mp (List.count_pos_iff.mpr hx)

theorem calculateEntropy_replicate (n x : Nat) :
    calculateEntropy (List.replicate n x) = 0 := by
  unfold calculateEntropy
  by_cases h0 : (List.replicate n x).length = 0
  · rw [if_pos h0]
  · rw [if_neg h0]
    have hn : n ≠ 0 := by simpa using h0
    apply Finset.sum_eq_zero
    intro b _
    by_cases hb : histogram (List.replicate n x) b ≠ 0
    · rw [if_pos hb]
      have hbx : b = x := by
        by_contra hne
        apply hb
        rw [histogram_eq_count, List.count_replicate]
        simp [Ne.symm hne]
      subst hbx
      rw [histogram_eq_count, List.count_replicate_self, List.length_replicate]
      rw [div_self (by exact_mod_cast hn)]
      simp [Real.logb_one]
    · rw [if_neg hb]

theorem getD_take_drop (s : List Nat) (off n k : Nat) (hk : k < n)
    (hlen : off + n ≤ s.length) :
    ((s.drop off).take n).getD k 0 = s.getD (off + k) 0 := by
  have h1 : k < ((s.drop off).take n).length := by
    simp only [List.length_take, List.length_drop]
    omega
  have h2 : off + k < s.length := by omega
  rw [List.getD_eq_getElem?_getD, List.getD_eq_getElem?_getD,
    List.getElem?_eq_getElem h1, List.getElem?_eq_getElem h2]
  simp only [Option.getD_some]
  rw [List.getElem_take, List.getElem_drop]

theorem take_drop_eq_iff_getD (s pat : List Nat) (off : Nat)
    (hlen : off + pat.length ≤ s.length) :
    (s.drop off).take pat.length = pat ↔
      ∀ k, k < pat.length → s.getD (off + k) 0 = pat.getD k 0 := by
  constructor
  · intro heq k hk
    rw [← heq]
    exact (getD_take_drop s off pat.length k hk hlen).symm
  · intro h
    apply List.ext_getElem
    · simp only [List.length_take, List.length_drop]
      omega
    · intro i h1 h2
      have hsi : off + i < s.length := by omega
      have hgoal : ((s.drop off).take pat.length)[i] = s[off + i] := by
        rw [List.getElem_take, List.getElem_drop]
      rw [hgoal]
      have hd := h i h2
      rw [List.getD_eq_getElem?_getD, List.getD_eq_getElem?_getD,
        List.getElem?_eq_getElem hsi, List.getElem?_eq_getElem h2] at hd
      simpa using hd

theorem matchesAt_iff (s : List Nat) (e : SignatureEntry) :
    matchesAt s e = true ↔
      e.patternOffset + e.pattern.length ≤ s.length ∧
        ∀ k, k < e.pattern.length →
          s.getD (e.patternOffset + k) 0 = e.pattern.getD k 0 := by
  unfold matchesAt
  rw [Bool.and_eq_true, decide_eq_true_eq, beq_iff_eq]
  constructor
  · rintro ⟨hlen, heq⟩
    exact ⟨hlen, (take_drop_eq_iff_getD s e.pattern e.patternOffset hlen).mp heq⟩
  · rintro ⟨hlen, h⟩
    exact ⟨hlen, (take_drop_eq_iff_getD s e.pattern e.patternOffset hlen).mpr h⟩

theorem signatureMatch_eq_some_iff (table : List SignatureEntry) (s : List Nat)
    (name : String) :
    signatureMatch table s = some name ↔
      ∃ pre e post, table = pre ++ e :: post ∧ matchesAt s e = true ∧
        name = e.name ∧ ∀ e2 ∈ pre, matchesAt s e2 = false := by
  induction table with
  | nil =>
    constructor
    · intro h
      exact absurd h (by simp [signatureMatch])
    · rintro ⟨pre, e, post, heq, -, -, -⟩
      exact absurd heq.symm (List.append_ne_nil_of_right_ne_nil pre (by simp))
  | cons hd tl ih =>
    by_cases hm : matchesAt s hd
    · have hstep : signatureMatch (hd :: tl) s = some hd.name := by
        simp [signatureMatch, hm]
      rw [hstep]
      constructor
      · intro h
        have hn : name = hd.name := (Option.some_inj.mp h).symm
        exact ⟨[], hd, tl, rfl, hm, hn, by simp⟩
      · rintro ⟨pre, e, post, heq, he, hname, hpre⟩
        cases pre with
        | nil =>
          simp only [List.nil_append, List.cons.injEq] at heq
          rw [hname, heq.1]
        | cons p pre2 =>
          simp only [List.cons_append, List.cons.injEq] at heq
          have hp : matchesAt s p = false := hpre p (by simp)
          rw [heq.1] at hm
          rw [hm] at hp
          exact absurd hp (by simp)
    · have hm' : matchesAt s hd = false := by
        simpa using hm
      have hstep : signatureMatch (hd :: tl) s = signatureMatch tl s := by
        simp [signatureMatch, hm']
      rw [hstep, ih]
      constructor
      · rintro ⟨pre, e, post, heq, he, hname, hpre⟩
        refine ⟨hd :: pre, e, post, (by simp [heq]), he, hname, ?_⟩
        intro e2 he2
        rcases List.mem_cons.mp he2 with h1 | h2
        · rw [h1]; exact hm'
        · exact hpre e2 h2
      · rintro ⟨pre, e, post, heq, he, hname, hpre⟩
        cases pre with
        | nil =>
          simp only [List.nil_append, List.cons.injEq] at heq
          rw [heq.1] at hm'
          rw [he] at hm'
          exact absurd hm' (by simp)
        | cons p pre2 =>
          simp only [List.cons_append, List.cons.injEq] at heq
          exact ⟨pre2, e, post, heq.2, he, hname, fun e2 he2 => hpre e2 (by simp [he2])⟩

theorem signatureMatch_mem_names (table : List SignatureEntry) (s : List Nat)
    (n : String) (h : signatureMatch table s = some n) :
    n ∈ table.map SignatureEntry.name := by
  induction table with
  | nil => simp [signatureMatch] at h
  | cons hd tl ih =>
    by_cases hm : matchesAt s hd
    · simp only [signatureMatch, hm, if_true, Option.some_inj] at h
      simp [← h]
    · have hm' : matchesAt s hd = false := by simpa using hm
      simp only [signatureMatch, hm', if_false] at h
      simp [ih h]

theorem signatureMatch_nil : signatureMatch signatureTable [] = none := by decide

theorem classifySample_some (s : List Nat) (n : String)
    (hm : signatureMatch signatureTable s = some n) :
    classifySample s = { isEncrypted := 1, desc := truncateDesc (signatureDesc n) } := by
  unfold classifySample
  rw [hm]

theorem classifySample_none (s : List Nat)
    (hm : signatureMatch signatureTable s = none) :
    classifySample s =
      if ENCRYPTION_MINIMUM_ENTROPY < calculateEntropy s then
        { isEncrypted := 1, desc := truncateDesc (highEntropyDesc (calculateEntropy s)) }
      else
        { isEncrypted := 0, desc := truncateDesc (lowEntropyDesc (calculateEntropy s)) } := by
  unfold classifySample
  rw [hm]

theorem isEncrypted_eq_classify (img : TSK_IMG_INFO) (offset : Nat) (s : List Nat)
    (hr : readSample img offset = some s) (hne : s ≠ []) :
    isEncrypted img offset = classifySample s := by
  unfold isEncrypted
  rw [hr]
  cases s with
  | nil => exact absurd rfl hne
  | cons b rest => rfl

theorem signatureDesc_short (s : List Nat) (n : String)
    (h : signatureMatch signatureTable s = some n) :
    (signatureDesc n).length ≤ TSK_ERROR_STRING_MAX_LENGTH - 1 := by
  have hmem := signatureMatch_mem_names signatureTable s n h
  simp only [signatureTable, List.map_cons, List.map_nil, List.mem_cons,
    List.not_mem_nil, or_false] at hmem
  rcases hmem with h1 | h1 | h1 <;> subst h1 <;> decide

theorem classifySample_isEncrypted (s : List Nat) :
    (classifySample s).isEncrypted = 1 ↔
      (∃ n, signatureMatch signatureTable s = some n) ∨
        ENCRYPTION_MINIMUM_ENTROPY < calculateEntropy s := by
  cases hm : signatureMatch signatureTable s with
  | some n =>
    rw [classifySample_some s n hm]
    simp [hm]
  | none =>
    rw [classifySample_none s hm]
    by_cases he : ENCRYPTION_MINIMUM_ENTROPY < calculateEntropy s
    · rw [if_pos he]
      simp [he]
    · rw [if_neg he]
      simp [hm, he]

theorem isEncrypted_eq_error_none (img : TSK_IMG_INFO) (offset : Nat)
    (hr : readSample img offset = none) :
    isEncrypted img offset = readErrorResult := by
  unfold isEncrypted
  rw [hr]

theorem isEncrypted_eq_error_nil (img : TSK_IMG_INFO) (offset : Nat)
    (hr : readSample img offset = some []) :
    isEncrypted img offset = readErrorResult := by
  unfold isEncrypted
  rw [hr]

/-! ## Claim theorems -/

/-- C1: a returned result's `isEncrypted` flag is 1 exactly when a sample was
actually read and either a signature from the table matched it or its
entropy score exceeds the configured threshold; a failed read yields a
fully-formed non-encrypted result. -/
theorem isEncrypted_flag_iff (img : TSK_IMG_INFO) (offset : Nat) :
    (isEncrypted img offset).isEncrypted = 1 ↔
      ∃ s, readSample img offset = some s ∧
        ((∃ n, signatureMatch signatureTable s = some n) ∨
          ENCRYPTION_MINIMUM_ENTROPY < calculateEntropy s) := by
  cases hr : readSample img offset with
  | none =>
    rw [isEncrypted_eq_error_none img offset hr]
    constructor
    · intro h
      exact absurd h (by decide)
    · rintro ⟨s, hs, -⟩
      exact absurd hs (by simp)
  | some s =>
    cases s with
    | nil =>
      rw [isEncrypted_eq_error_nil img offset hr]
      constructor
      · intro h
        exact absurd h (by decide)
      · rintro ⟨s, hs, hd⟩
        have hs' : ([] : List Nat) = s := Option.some_inj.mp hs
        subst hs'
        rcases hd with ⟨n, hn⟩ | hent
        · rw [signatureMatch_nil] at hn
          exact absurd hn (by simp)
        · rw [calculateEntropy_nil] at hent
          norm_num [ENCRYPTION_MINIMUM_ENTROPY] at hent
    | cons b rest =>
      rw [isEncrypted_eq_classify img offset (b :: rest) hr (by simp),
        classifySample_isEncrypted]
      constructor
      · intro h
        exact ⟨b :: rest, rfl, h⟩
      · rintro ⟨s, hs, h⟩
        have hs' : (b :: rest) = s := Option.some_inj.mp hs
        rw [← hs'] at h
        exact h

/-- C2: on a failed read or a zero-length read the detection operation
returns the fail-open result: flag 0 and the description explaining that
the read could not be performed; the failure is absorbed, not escalated. -/
theorem isEncrypted_read_failure (img : TSK_IMG_INFO) (offset : Nat)
    (h : img.ioFails = true ∨ readSample img offset = some []) :
    isEncrypted img offset = readErrorResult ∧
      readErrorResult.isEncrypted = 0 ∧ readErrorResult.desc = readErrorDesc := by
  refine ⟨?_, rfl, truncateDesc_eq_of_le readErrorDesc (by decide)⟩
  rcases h with h | h
  · exact isEncrypted_eq_error_none img offset (by simp [readSample, h])
  · exact isEncrypted_eq_error_nil img offset h

/-- C2 witness: a failing image produces exactly the fail-open result. -/
theorem isEncrypted_read_failure_witness :
    isEncrypted badImage 0 = readErrorResult ∧
      readErrorResult.isEncrypted = 0 ∧ readErrorResult.desc = readErrorDesc :=
  isEncrypted_read_failure badImage 0 (Or.inl rfl)

/-- C3: when a signature entry matches the sample that was read, the result
is flag 1 with a description that names the matched format, and the verdict
is fully determined without consulting the entropy analyzer. -/
theorem isEncrypted_signature_priority (img : TSK_IMG_INFO) (offset : Nat)
    (s : List Nat) (n : String)
    (hr : readSample img offset = some s)
    (hm : signatureMatch signatureTable s = some n) :
    isEncrypted img offset = { isEncrypted := 1, desc := signatureDesc n } ∧
      ∃ t, (isEncrypted img offset).desc = n ++ t := by
  have hne : s ≠ [] := by
    intro hcon
    rw [hcon, signatureMatch_nil] at hm
    exact absurd hm (by simp)
  have heq := isEncrypted_eq_classify img offset s hr hne
  have htr : truncateDesc (signatureDesc n) = signatureDesc n :=
    truncateDesc_eq_of_le _ (signatureDesc_short s n hm)
  have hres : isEncrypted img offset = { isEncrypted := 1, desc := signatureDesc n } := by
    rw [heq, classifySample_some s n hm, htr]
  refine ⟨hres, " encryption detected", ?_⟩
  rw [hres]
  rfl

/-- C3 witness: an image that is a bit-for-bit copy of the LUKS magic is
reported as LUKS. -/
theorem isEncrypted_signature_priority_witness :
    isEncrypted lukImage 0 = { isEncrypted := 1, desc := signatureDesc "LUKS" } ∧
      ∃ t, (isEncrypted lukImage 0).desc = "LUKS" ++ t :=
  isEncrypted_signature_priority lukImage 0 [0x4C, 0x55, 0x4B, 0x53, 0xBA, 0xBE]
    "LUKS" (by rfl) (by rfl)

/-- C4: the entropy analyzer computes the Shannon entropy of the byte-value
distribution — `-Σ p_i * log2 p_i` over the 256 buckets with a positive
count, with `p_i = count_i / L` — and 0 for an empty sample. -/
theorem calculateEntropy_spec (s : List Nat) :
    calculateEntropy s =
      if s.length = 0 then 0
      else -∑ b ∈ (Finset.range 256).filter (fun b => 0 < s.count b),
        ((s.count b : ℝ) / (s.length : ℝ)) *
          Real.logb 2 ((s.count b : ℝ) / (s.length : ℝ)) := by
  unfold calculateEntropy
  by_cases h0 : s.length = 0
  · rw [if_pos h0, if_pos h0]
  · rw [if_neg h0, if_neg h0]
    simp only [histogram_eq_count]
    rw [Finset.sum_filter, ← Finset.sum_neg_distrib]
    apply Finset.sum_congr rfl
    intro b _
    by_cases hb : s.count b = 0
    · rw [hb]
      simp
    · rw [if_pos hb, if_pos (Nat.pos_of_ne_zero hb)]

/-- C5: the signature matcher returns a name exactly when the table splits
as failing entries, then the matched entry (first match wins, in table
order), and an entry matches exactly when the sample is long enough and
equals the pattern bytes pointwise from the pattern offset. -/
theorem signatureMatch_spec (table : List SignatureEntry) (s : List Nat) :
    (∀ name, signatureMatch table s = some name ↔
      ∃ pre e post, table = pre ++ e :: post ∧ matchesAt s e = true ∧
        name = e.name ∧ ∀ e2 ∈ pre, matchesAt s e2 = false) ∧
    ∀ e, matchesAt s e = true ↔
      e.patternOffset + e.pattern.length ≤ s.length ∧
        ∀ k, k < e.pattern.length →
          s.getD (e.patternOffset + k) 0 = e.pattern.getD k 0 :=
  ⟨fun name => signatureMatch_eq_some_iff table s name, fun e => matchesAt_iff s e⟩

/-- C6: every returned result's description length is within the declared
bound TSK_ERROR_STRING_MAX_LENGTH. -/
theorem isEncrypted_desc_bounded (img : TSK_IMG_INFO) (offset : Nat) :
    (isEncrypted img offset).desc.length ≤ TSK_ERROR_STRING_MAX_LENGTH := by
  cases hr : readSample img offset with
  | none =>
    rw [isEncrypted_eq_error_none img offset hr]
    exact truncateDesc_length readErrorDesc
  | some s =>
    cases s with
    | nil =>
      rw [isEncrypted_eq_error_nil img offset hr]
      exact truncateDesc_length readErrorDesc
    | cons b rest =>
      rw [isEncrypted_eq_classify img offset (b :: rest) hr (by simp)]
      cases hm : signatureMatch signatureTable (b :: rest) with
      | some n =>
        rw [classifySample_some _ n hm]
        exact truncateDesc_length _
      | none =>
        rw [classifySample_none _ hm]
        by_cases he : ENCRYPTION_MINIMUM_ENTROPY < calculateEntropy (b :: rest)
        · rw [if_pos he]
          exact truncateDesc_length _
        · rw [if_neg he]
          exact truncateDesc_length _

/-- C7: a short but nonzero read is not an error: the detection operation
classifies (matches and scores) exactly the bytes actually read. -/
theorem isEncrypted_short_read (img : TSK_IMG_INFO) (offset : Nat) (s : List Nat)
    (hr : readSample img offset = some s) (hpos : 0 < s.length)
    (_hshort : s.length < windowSize) :
    isEncrypted img offset = classifySample s :=
  isEncrypted_eq_classify img offset s hr (by
    intro hcon
    rw [hcon] at hpos
    simp at hpos)

/-- C7 witness: a three-byte image is classified from its three bytes. -/
theorem isEncrypted_short_read_witness :
    isEncrypted shortImage 0 = classifySample [1, 2, 3] :=
  isEncrypted_short_read shortImage 0 [1, 2, 3] (by rfl) (by decide) (by decide)

set_option maxRecDepth 4000 in
/-- C8: the entropy score always lies in [0, 8]; the all-zero window scores
exactly 0 and, with no signature matching it, the all-zero image is
classified as not encrypted. -/
theorem calculateEntropy_range (s : List Nat) (h : ∀ x ∈ s, x < 256) :
    (0 ≤ calculateEntropy s ∧ calculateEntropy s ≤ 8) ∧
      calculateEntropy (List.replicate windowSize 0) = 0 ∧
      (isEncrypted zeroImage 0).isEncrypted = 0 := by
  refine ⟨⟨calculateEntropy_nonneg s, calculateEntropy_le_eight s h⟩,
    calculateEntropy_replicate windowSize 0, ?_⟩
  have hread : readSample zeroImage 0 = some (List.replicate windowSize 0) := by
    simp [readSample, zeroImage, List.take_of_length_le]
  have hne : List.replicate windowSize 0 ≠ [] :=
    List.ne_nil_of_length_pos (by rw [List.length_replicate]; norm_num [windowSize])
  rw [isEncrypted_eq_classify zeroImage 0 _ hread hne]
  have hm : signatureMatch signatureTable (List.replicate windowSize 0) = none := by
    decide
  rw [classifySample_none _ hm, calculateEntropy_replicate windowSize 0,
    if_neg (by norm_num [ENCRYPTION_MINIMUM_ENTROPY])]

/-- C8 witness: the bounds at a concrete two-byte sample, the zero-window
score and the zero-image verdict. -/
theorem calculateEntropy_range_witness :
    (0 ≤ calculateEntropy [0, 1] ∧ calculateEntropy [0, 1] ≤ 8) ∧
      calculateEntropy (List.replicate windowSize 0) = 0 ∧
      (isEncrypted zeroImage 0).isEncrypted = 0 :=
  calculateEntropy_range [0, 1] (by decide)

/-- C9: the detection operation is deterministic in the image bytes and the
read outcome: images with equal bytes and equal read status yield equal
results at every offset, whatever other metadata differs. -/
theorem isEncrypted_deterministic (img1 img2 : TSK_IMG_INFO) (offset : Nat)
    (hdata : img1.data = img2.data) (hio : img1.ioFails = img2.ioFails) :
    isEncrypted img1 offset = isEncrypted img2 offset := by
  unfold isEncrypted readSample
  rw [hdata, hio]

/-- C9 witness: two images equal in bytes but different in sector-size
metadata classify identically. -/
theorem isEncrypted_deterministic_witness :
    isEncrypted imgA 0 = isEncrypted imgB 0 :=
  isEncrypted_deterministic imgA imgB 0 rfl rfl

/-- C10: the C `int` flag of every produced result is exactly 0 or 1. -/
theorem isEncrypted_flag_zero_or_one (img : TSK_IMG_INFO) (offset : Nat) :
    (isEncrypted img offset).isEncrypted = 0 ∨
      (isEncrypted img offset).isEncrypted = 1 := by
  cases hr : readSample img offset with
  | none =>
    rw [isEncrypted_eq_error_none img offset hr]
    left
    rfl
  | some s =>
    cases s with
    | nil =>
      rw [isEncrypted_eq_error_nil img offset hr]
      left
      rfl
    | cons b rest =>
      rw [isEncrypted_eq_classify img offset (b :: rest) hr (by simp)]
      cases hm : signatureMatch signatureTable (b :: rest) with
      | some n =>
        rw [classifySample_some _ n hm]
        right
        rfl
      | none =>
        rw [classifySample_none _ hm]
        by_cases he : ENCRYPTION_MINIMUM_ENTROPY < calculateEntropy (b :: rest)
        · rw [if_pos he]
          right
          rfl
        · rw [if_neg he]
          left
          rfl
